import Mathlib

/-!
Verification of the rotational-dynamics core of the Newtonian-Entangledment-
Dynamics program (src/main.cu): the mesh-coupling kernel `enforce_mesh`, the
quaternion orientation integrator, and the per-frame approach/mesh loop.

Angular velocities, positions and the coupling arithmetic are embedded over ℚ
(the C `float` arithmetic idealized as exact rationals); the quaternion math,
which involves a square root, is embedded over ℝ.
-/

namespace NED

/-- Type `float3`, restricted to the components the program uses. -/
@[ext]
structure V3 where
  x : ℚ
  y : ℚ
  z : ℚ
deriving DecidableEq, Repr

/-- Function `crossf` from src/main.cu lines 21-27: the cross product. -/
def crossf (a b : V3) : V3 :=
  ⟨a.y * b.z - a.z * b.y,
   a.z * b.x - a.x * b.z,
   a.x * b.y - a.y * b.x⟩

/-- Constant `softness = 0.05f` (src/main.cu line 30). -/
def softness : ℚ := 1 / 20

/-- Constant `damping = 0.995f` (src/main.cu line 31). -/
def damping : ℚ := 199 / 200

/-- Constant `maxW = 5.0f` (src/main.cu line 32). -/
def maxW : ℚ := 5

/-- The clamp `fminf(fmaxf(v, -maxW), maxW)` (src/main.cu lines 55-60). -/
def clampW (v : ℚ) : ℚ := min (max v (-maxW)) maxW

/-- The kernel `enforce_mesh` (src/main.cu lines 29-61), translated
statement by statement; the in-place field mutations become sequential
record updates.  Takes the two bodies' angular velocities, returns the
updated pair. -/
def enforce_mesh (a0 b0 : V3) : V3 × V3 :=
  let v1 := crossf a0 ⟨1, 0, 0⟩
  let v2 := crossf b0 ⟨-1, 0, 0⟩
  let vrel : V3 := ⟨v1.x - v2.x, v1.y - v2.y, v1.z - v2.z⟩
  let a := { a0 with y := a0.y - vrel.y * softness }
  let a := { a with z := a.z - vrel.z * softness }
  let b := { b0 with y := b0.y + vrel.y * softness }
  let b := { b with z := b.z + vrel.z * softness }
  let a := { a with x := a.x * damping }
  let a := { a with y := a.y * damping }
  let a := { a with z := a.z * damping }
  let b := { b with x := b.x * damping }
  let b := { b with y := b.y * damping }
  let b := { b with z := b.z * damping }
  let a := { a with x := clampW a.x }
  let a := { a with y := clampW a.y }
  let a := { a with z := clampW a.z }
  let b := { b with x := clampW b.x }
  let b := { b with y := clampW b.y }
  let b := { b with z := clampW b.z }
  (a, b)

/-- The relative surface velocity `vrel` at the contact point, as the kernel
computes it (src/main.cu lines 34-41): cross products against the fixed
normals `(1,0,0)` and `(-1,0,0)`, then the componentwise difference. -/
def vrelOf (a b : V3) : V3 :=
  let v1 := crossf a ⟨1, 0, 0⟩
  let v2 := crossf b ⟨-1, 0, 0⟩
  ⟨v1.x - v2.x, v1.y - v2.y, v1.z - v2.z⟩

/-- The tangential relative-surface-velocity magnitude
`|vrel.y| + |vrel.z|` of the spec's convergence property. -/
def tangMis (a b : V3) : ℚ := |(vrelOf a b).y| + |(vrelOf a b).z|

/-- Step 3 of the spec's coupling algorithm: the softness-scaled correction,
with both bodies' corrections taken from one snapshot of the pre-step
angular velocities. -/
def couple_step (p : V3 × V3) : V3 × V3 :=
  let vrel := vrelOf p.1 p.2
  (⟨p.1.x, p.1.y - vrel.y * softness, p.1.z - vrel.z * softness⟩,
   ⟨p.2.x, p.2.y + vrel.y * softness, p.2.z + vrel.z * softness⟩)

/-- Step 4 of the spec's coupling algorithm: uniform damping of all six
angular-velocity components. -/
def damp_step (p : V3 × V3) : V3 × V3 :=
  (⟨p.1.x * damping, p.1.y * damping, p.1.z * damping⟩,
   ⟨p.2.x * damping, p.2.y * damping, p.2.z * damping⟩)

/-- Step 5 of the spec's coupling algorithm: clamp all six components to
`[-maxW, maxW]`. -/
def clamp_step (p : V3 × V3) : V3 × V3 :=
  (⟨clampW p.1.x, clampW p.1.y, clampW p.1.z⟩,
   ⟨clampW p.2.x, clampW p.2.y, clampW p.2.z⟩)

/-- The coupling algorithm exactly as the spec phrases it: snapshot-based
correction, then damping, then clamping. -/
def enforce_mesh_spec (p : V3 × V3) : V3 × V3 :=
  clamp_step (damp_step (couple_step p))

/-- Iteration helper: `enforce_mesh` as a self-map of the pair of angular
velocities, for claims about repeated invocations. -/
def emStep (p : V3 × V3) : V3 × V3 := enforce_mesh p.1 p.2

/-- What damping followed by clamping does to a single component. -/
def dampClamp (v : ℚ) : ℚ := clampW (v * damping)

/-- Claim C1: one invocation of `enforce_mesh` computes exactly the
specified sequence: surface velocities as cross products with the fixed
normals, `vrel = vA - vB`, the softness-scaled correction of the `y`/`z`
components computed from a consistent snapshot of the pre-step angular
velocities, then damping of all six components, then clamping to
`[-5, 5]`; nothing else is modified. -/
theorem c1_enforce_mesh_spec (a b : V3) :
    enforce_mesh a b = enforce_mesh_spec (a, b) := by
  rfl

theorem clampW_mem (v : ℚ) : -5 ≤ clampW v ∧ clampW v ≤ 5 := by
  unfold clampW maxW
  constructor
  · exact le_min (le_max_right _ _) (by norm_num)
  · exact min_le_right _ _

/-- Claim C3: after any invocation of `enforce_mesh`, every component of
each body's angular velocity lies in `[-5, 5]`. -/
theorem c3_clamp_invariant (a b : V3) :
    (-5 ≤ (enforce_mesh a b).1.x ∧ (enforce_mesh a b).1.x ≤ 5) ∧
    (-5 ≤ (enforce_mesh a b).1.y ∧ (enforce_mesh a b).1.y ≤ 5) ∧
    (-5 ≤ (enforce_mesh a b).1.z ∧ (enforce_mesh a b).1.z ≤ 5) ∧
    (-5 ≤ (enforce_mesh a b).2.x ∧ (enforce_mesh a b).2.x ≤ 5) ∧
    (-5 ≤ (enforce_mesh a b).2.y ∧ (enforce_mesh a b).2.y ≤ 5) ∧
    (-5 ≤ (enforce_mesh a b).2.z ∧ (enforce_mesh a b).2.z ≤ 5) := by
  refine ⟨?_, ?_, ?_, ?_, ?_, ?_⟩ <;> exact clampW_mem _

theorem enforce_mesh_x (a b : V3) :
    (enforce_mesh a b).1.x = dampClamp a.x ∧
    (enforce_mesh a b).2.x = dampClamp b.x := by
  exact ⟨rfl, rfl⟩

/-- Claim C7: across any sequence of coupling invocations, the `x`
component of each body's angular velocity is changed only by the damping
multiplication and the clamp; the softness-scaled correction never
modifies it. -/
theorem c7_decoupled_axis (p : V3 × V3) (n : ℕ) :
    (emStep^[n] p).1.x = dampClamp^[n] p.1.x ∧
    (emStep^[n] p).2.x = dampClamp^[n] p.2.x := by
  induction n generalizing p with
  | zero => exact ⟨rfl, rfl⟩
  | succ n ih =>
      rw [Function.iterate_succ_apply, Function.iterate_succ_apply,
        Function.iterate_succ_apply]
      have h := enforce_mesh_x p.1 p.2
      have h1 := (ih (emStep p)).1
      have h2 := (ih (emStep p)).2
      rw [h1, h2]
      unfold emStep
      rw [h.1, h.2]
      exact ⟨rfl, rfl⟩

/-- Claim C10: the softness-scaled correction phase of `enforce_mesh`
exactly conserves `ωA.y + ωB.y` and `ωA.z + ωB.z`; consequently the
tangential relative surface velocity recomputed from the corrected
angular velocities equals its pre-correction value, so only damping and
clamping can change it. -/
theorem c10_correction_conserves (a b : V3) :
    (couple_step (a, b)).1.y + (couple_step (a, b)).2.y = a.y + b.y ∧
    (couple_step (a, b)).1.z + (couple_step (a, b)).2.z = a.z + b.z ∧
    vrelOf (couple_step (a, b)).1 (couple_step (a, b)).2 = vrelOf a b := by
  refine ⟨by simp [couple_step, vrelOf, crossf], by
    simp [couple_step, vrelOf, crossf], ?_⟩
  simp only [couple_step, vrelOf, crossf]
  ext <;> simp <;> ring

theorem clamp_add_abs_le (x y : ℚ) :
    |clampW x + clampW y| ≤ |x + y| := by
  rcases abs_cases (x + y) with ⟨h1, h2⟩ | ⟨h1, h2⟩ <;>
    rw [h1] <;> rw [abs_le] <;> constructor <;>
    simp only [clampW, maxW, min_def, max_def] <;>
    split_ifs <;> linarith

theorem vrelOf_y (a b : V3) : (vrelOf a b).y = a.z + b.z := by
  simp [vrelOf, crossf]

theorem vrelOf_z (a b : V3) : (vrelOf a b).z = -a.y - b.y := by
  simp [vrelOf, crossf]

theorem em_fst_y (a b : V3) :
    (enforce_mesh a b).1.y =
      clampW ((a.y - (vrelOf a b).y * softness) * damping) := rfl

theorem em_fst_z (a b : V3) :
    (enforce_mesh a b).1.z =
      clampW ((a.z - (vrelOf a b).z * softness) * damping) := rfl

theorem em_snd_y (a b : V3) :
    (enforce_mesh a b).2.y =
      clampW ((b.y + (vrelOf a b).y * softness) * damping) := rfl

theorem em_snd_z (a b : V3) :
    (enforce_mesh a b).2.z =
      clampW ((b.z + (vrelOf a b).z * softness) * damping) := rfl

/-- Claim C2, amended: when the tangential relative surface velocity is
nonzero (`|vrel.y| + |vrel.z| ≠ 0`), one invocation of the Mesh-Coupling
Engine strictly decreases `|vrel.y| + |vrel.z|` recomputed from the
updated angular velocities; hence repeated invocation strictly decreases
it at every iteration while it remains nonzero.  (The decrease comes from
damping: the correction itself conserves `vrel` exactly.) -/
theorem c2_tangential_decrease (a b : V3) (h : tangMis a b ≠ 0) :
    tangMis (enforce_mesh a b).1 (enforce_mesh a b).2 < tangMis a b := by
  have hpos : 0 < tangMis a b :=
    lt_of_le_of_ne (add_nonneg (abs_nonneg _) (abs_nonneg _)) (Ne.symm h)
  have hy : (vrelOf (enforce_mesh a b).1 (enforce_mesh a b).2).y =
      clampW ((a.z - (vrelOf a b).z * softness) * damping) +
        clampW ((b.z + (vrelOf a b).z * softness) * damping) := by
    rw [vrelOf_y, em_fst_z, em_snd_z]
  have hz : (vrelOf (enforce_mesh a b).1 (enforce_mesh a b).2).z =
      -(clampW ((a.y - (vrelOf a b).y * softness) * damping) +
        clampW ((b.y + (vrelOf a b).y * softness) * damping)) := by
    rw [vrelOf_z, em_fst_y, em_snd_y]
    ring
  have ey : (a.z - (vrelOf a b).z * softness) * damping +
      (b.z + (vrelOf a b).z * softness) * damping =
        damping * (vrelOf a b).y := by
    rw [vrelOf_y]
    ring
  have ez : (a.y - (vrelOf a b).y * softness) * damping +
      (b.y + (vrelOf a b).y * softness) * damping =
        damping * (-(vrelOf a b).z) := by
    rw [vrelOf_z]
    ring
  have hd : |(damping : ℚ)| = damping := abs_of_pos (by norm_num [damping])
  calc tangMis (enforce_mesh a b).1 (enforce_mesh a b).2
      = |clampW ((a.z - (vrelOf a b).z * softness) * damping) +
          clampW ((b.z + (vrelOf a b).z * softness) * damping)| +
        |clampW ((a.y - (vrelOf a b).y * softness) * damping) +
          clampW ((b.y + (vrelOf a b).y * softness) * damping)| := by
        rw [tangMis, hy, hz, abs_neg]
    _ ≤ |(a.z - (vrelOf a b).z * softness) * damping +
          (b.z + (vrelOf a b).z * softness) * damping| +
        |(a.y - (vrelOf a b).y * softness) * damping +
          (b.y + (vrelOf a b).y * softness) * damping| :=
        add_le_add (clamp_add_abs_le _ _) (clamp_add_abs_le _ _)
    _ = damping * tangMis a b := by
        rw [ey, ez, abs_mul, abs_mul, hd, abs_neg, tangMis]
        ring
    _ < 1 * tangMis a b := by
        refine mul_lt_mul_of_pos_right ?_ hpos
        norm_num [damping]
    _ = tangMis a b := one_mul _

/-- Claim C2 as stated is false: the bodies `ωA = (0, 1, 1)` and
`ωB = (0, -1, -1)` have distinct tangential angular velocities, yet one
coupling invocation does not strictly decrease `|vrel.y| + |vrel.z|`:
the pair is already at equal tangential surface speed (`vrel = 0`, the
bodies counter-rotate like meshed gears), and `vrel` stays `0`. -/
theorem c2_counterexample :
    (V3.mk 0 1 1).y ≠ (V3.mk 0 (-1) (-1)).y ∧
    (V3.mk 0 1 1).z ≠ (V3.mk 0 (-1) (-1)).z ∧
    ¬ tangMis (enforce_mesh ⟨0, 1, 1⟩ ⟨0, -1, -1⟩).1
        (enforce_mesh ⟨0, 1, 1⟩ ⟨0, -1, -1⟩).2 <
      tangMis ⟨0, 1, 1⟩ ⟨0, -1, -1⟩ := by
  refine ⟨by norm_num, by norm_num, ?_⟩
  norm_num [tangMis, vrelOf, crossf, enforce_mesh, softness, damping, clampW,
    maxW]

/-- Witness for `c2_tangential_decrease` at `ωA = (0, 1, 0)`,
`ωB = (0, 0, 0)`. -/
theorem c2_tangential_decrease_witness :
    tangMis (enforce_mesh ⟨0, 1, 0⟩ ⟨0, 0, 0⟩).1
        (enforce_mesh ⟨0, 1, 0⟩ ⟨0, 0, 0⟩).2 <
      tangMis ⟨0, 1, 0⟩ ⟨0, 0, 0⟩ :=
  c2_tangential_decrease ⟨0, 1, 0⟩ ⟨0, 0, 0⟩ (by
    norm_num [tangMis, vrelOf, crossf])

/-- The per-frame position/coupling state: the two x positions `x1`, `x2`
(src/main.cu line 170) and the two angular velocities (host copies `h1`,
`h2`; the device copies hold the same values since every frame copies
device to host and nothing else writes them).  The quaternion state is
layered on top separately. -/
structure Core where
  x1 : ℚ
  x2 : ℚ
  w1 : V3
  w2 : V3
deriving DecidableEq, Repr

/-- One frame of the position/coupling update, src/main.cu lines 188-189:
`if (x1 < -1.01f) { x1 += 0.01f; x2 -= 0.01f; } else enforce_mesh(d1, d2)`. -/
def coreStep (s : Core) : Core :=
  if s.x1 < -101 / 100 then
    { s with x1 := s.x1 + 1 / 100, x2 := s.x2 - 1 / 100 }
  else
    { s with w1 := (enforce_mesh s.w1 s.w2).1,
             w2 := (enforce_mesh s.w1 s.w2).2 }

/-- The Approach Controller's phase, per the spec's two-state machine. -/
inductive Phase where
  | APPROACHING
  | MESHED
deriving DecidableEq, Repr

/-- The phase reported for the frame executed from state `s`: the branch
taken by the test at src/main.cu line 188. -/
def phase (s : Core) : Phase :=
  if s.x1 < -101 / 100 then Phase.APPROACHING else Phase.MESHED

/-- The coupling kernel is launched in the frame executed from `s` exactly
when the else branch at src/main.cu line 189 is taken. -/
def couplingRuns (s : Core) : Prop := ¬ s.x1 < -101 / 100

/-- The initial state, src/main.cu lines 170 and 173-174:
`x1 = -2`, `x2 = 2`, `ω1 = (0.4, 0.9, 0.2)`, `ω2 = (-0.3, 0.2, 0.8)`. -/
def core0 : Core := ⟨-2, 2, ⟨2/5, 9/10, 1/5⟩, ⟨-3/10, 1/5, 4/5⟩⟩

theorem coreStep_closed_form : ∀ n : ℕ, n ≤ 99 →
    (coreStep^[n] core0).x1 = -2 + (n : ℚ) / 100 ∧
    (coreStep^[n] core0).x2 = 2 - (n : ℚ) / 100 ∧
    (coreStep^[n] core0).w1 = core0.w1 ∧
    (coreStep^[n] core0).w2 = core0.w2 := by
  intro n
  induction n with
  | zero => intro _; refine ⟨?_, ?_, rfl, rfl⟩ <;> norm_num [core0]
  | succ n ih =>
      intro hn
      obtain ⟨h1, h2, h3, h4⟩ := ih (by omega)
      have hcast : (n : ℚ) ≤ 98 := by
        exact_mod_cast (by omega : n ≤ 98)
      have hcond : (coreStep^[n] core0).x1 < -101 / 100 := by
        rw [h1]; linarith
      rw [Function.iterate_succ_apply', coreStep, if_pos hcond]
      refine ⟨?_, ?_, h3, h4⟩
      · show (coreStep^[n] core0).x1 + 1 / 100 = -2 + (((n + 1 : ℕ)) : ℚ) / 100
        rw [h1]; push_cast; ring
      · show (coreStep^[n] core0).x2 - 1 / 100 = 2 - (((n + 1 : ℕ)) : ℚ) / 100
        rw [h2]; push_cast; ring

/-- Claim C6: starting from `leftX = -2.0` with per-frame step `+0.01` and
contact threshold `-1.01`, the controller reports `APPROACHING` for
exactly the first 99 frames (frame `k` examines state `coreStep^[k-1]`),
translating `leftX` by `+0.01` and `rightX` by `-0.01` on each of those
frames, and at frame 100 the phase is `MESHED`, with
`leftX = -1.01 ≥ -1.01`. -/
theorem c6_gate :
    (∀ n, n < 99 → phase (coreStep^[n] core0) = Phase.APPROACHING ∧
      (coreStep^[n + 1] core0).x1 = (coreStep^[n] core0).x1 + 1 / 100 ∧
      (coreStep^[n + 1] core0).x2 = (coreStep^[n] core0).x2 - 1 / 100) ∧
    phase (coreStep^[99] core0) = Phase.MESHED ∧
    (coreStep^[99] core0).x1 = -101 / 100 := by
  have h99 := coreStep_closed_form 99 (by omega)
  refine ⟨?_, ?_, ?_⟩
  · intro n hn
    obtain ⟨h1, h2, _, _⟩ := coreStep_closed_form n (by omega)
    obtain ⟨g1, g2, _, _⟩ := coreStep_closed_form (n + 1) (by omega)
    have hcast : (n : ℚ) ≤ 98 := by
      exact_mod_cast (by omega : n ≤ 98)
    refine ⟨?_, ?_, ?_⟩
    · rw [phase, if_pos]; rw [h1]; linarith
    · rw [g1, h1]; push_cast; ring
    · rw [g2, h2]; push_cast; ring
  · rw [phase, if_neg]
    rw [h99.1]; norm_num
  · rw [h99.1]; norm_num

theorem phase_meshed_iff (s : Core) :
    phase s = Phase.MESHED ↔ ¬ s.x1 < -101 / 100 := by
  rw [phase]
  split_ifs with h <;> simp [h]

/-- Claim C8: the transition `APPROACHING → MESHED` is one-way and
permanent: once the phase is `MESHED`, it stays `MESHED` in every
subsequent frame, both positions never change again, and the coupling
kernel runs on every subsequent frame; moreover (last conjunct) the
kernel runs in a frame exactly when that frame's phase is `MESHED`, so
it is never invoked while `APPROACHING`. -/
theorem c8_meshed_permanent (s : Core) (h : phase s = Phase.MESHED) :
    (∀ n, phase (coreStep^[n] s) = Phase.MESHED ∧
      (coreStep^[n] s).x1 = s.x1 ∧ (coreStep^[n] s).x2 = s.x2 ∧
      couplingRuns (coreStep^[n] s)) ∧
    (∀ t : Core, couplingRuns t ↔ phase t = Phase.MESHED) := by
  have main : ∀ n, phase (coreStep^[n] s) = Phase.MESHED ∧
      (coreStep^[n] s).x1 = s.x1 ∧ (coreStep^[n] s).x2 = s.x2 := by
    intro n
    induction n with
    | zero => exact ⟨h, rfl, rfl⟩
    | succ n ih =>
        obtain ⟨hp, hx1, hx2⟩ := ih
        have hc : ¬ (coreStep^[n] s).x1 < -101 / 100 :=
          (phase_meshed_iff _).mp hp
        rw [Function.iterate_succ_apply', coreStep, if_neg hc]
        refine ⟨?_, hx1, hx2⟩
        rw [phase, if_neg]
        exact hc
  refine ⟨fun n => ⟨(main n).1, (main n).2.1, (main n).2.2,
    (phase_meshed_iff _).mp (main n).1⟩, fun t => ?_⟩
  exact (phase_meshed_iff t).symm

/-- Witness for `c8_meshed_permanent` at the meshed state
`x1 = -1, x2 = 1, ω1 = ω2 = 0` (phase is `MESHED` since `-1 ≥ -1.01`). -/
theorem c8_meshed_permanent_witness :
    (∀ n, phase (coreStep^[n] ⟨-1, 1, ⟨0, 0, 0⟩, ⟨0, 0, 0⟩⟩) = Phase.MESHED ∧
      (coreStep^[n] ⟨-1, 1, ⟨0, 0, 0⟩, ⟨0, 0, 0⟩⟩).x1 =
        (Core.mk (-1) 1 ⟨0, 0, 0⟩ ⟨0, 0, 0⟩).x1 ∧
      (coreStep^[n] ⟨-1, 1, ⟨0, 0, 0⟩, ⟨0, 0, 0⟩⟩).x2 =
        (Core.mk (-1) 1 ⟨0, 0, 0⟩ ⟨0, 0, 0⟩).x2 ∧
      couplingRuns (coreStep^[n] ⟨-1, 1, ⟨0, 0, 0⟩, ⟨0, 0, 0⟩⟩)) ∧
    (∀ t : Core, couplingRuns t ↔ phase t = Phase.MESHED) :=
  c8_meshed_permanent ⟨-1, 1, ⟨0, 0, 0⟩, ⟨0, 0, 0⟩⟩
    (by rw [phase, if_neg (by norm_num)])

noncomputable section

/-- Type `Quat` from src/main.cu lines 65-67, with the `float` components
idealized as reals (the quaternion math involves a square root). -/
@[ext]
structure Quat where
  w : ℝ
  x : ℝ
  y : ℝ
  z : ℝ

/-- Function `quat_mul` (src/main.cu lines 69-76), component formulas verbatim. -/
def quat_mul (a b : Quat) : Quat :=
  ⟨a.w * b.w - a.x * b.x - a.y * b.y - a.z * b.z,
   a.w * b.x + a.x * b.w + a.y * b.z - a.z * b.y,
   a.w * b.y - a.x * b.z + a.y * b.w + a.z * b.x,
   a.w * b.z + a.x * b.y - a.y * b.x + a.z * b.w⟩

/-- The local `n` of `quat_norm` (src/main.cu line 79):
`sqrt(w*w + x*x + y*y + z*z)`. -/
def quatNorm (q : Quat) : ℝ :=
  Real.sqrt (q.w * q.w + q.x * q.x + q.y * q.y + q.z * q.z)

/-- Function `quat_norm` (src/main.cu lines 78-81): divide all four components by
the norm. -/
def quat_norm (q : Quat) : Quat :=
  ⟨q.w / quatNorm q, q.x / quatNorm q, q.y / quatNorm q, q.z / quatNorm q⟩

/-- Function `integrate_quat` (src/main.cu lines 83-86); the `float3 w` argument is
the ℚ-valued angular velocity, cast into ℝ. -/
def integrate_quat (q : Quat) (w : V3) (dt : ℝ) : Quat :=
  let dq : Quat := ⟨0, (w.x : ℝ) * dt, (w.y : ℝ) * dt, (w.z : ℝ) * dt⟩
  quat_norm (quat_mul q dq)

/-- The view of a `Quat` as a Mathlib quaternion over ℝ. -/
def toQuaternion (q : Quat) : Quaternion ℝ := ⟨q.w, q.x, q.y, q.z⟩

/-- The standard Hamilton product, taken from Mathlib's quaternion algebra
(the spec's `⊗`), transported to `Quat`. -/
def hamilton (a b : Quat) : Quat :=
  ⟨(toQuaternion a * toQuaternion b).re,
   (toQuaternion a * toQuaternion b).imI,
   (toQuaternion a * toQuaternion b).imJ,
   (toQuaternion a * toQuaternion b).imK⟩

/-- The Euclidean norm of the four components, as the spec words it. -/
def euclNorm (q : Quat) : ℝ :=
  Real.sqrt (q.w ^ 2 + q.x ^ 2 + q.y ^ 2 + q.z ^ 2)

/-- Normalization as the spec words it: divide all four components by the
Euclidean norm. -/
def normalize_spec (q : Quat) : Quat :=
  ⟨q.w / euclNorm q, q.x / euclNorm q, q.y / euclNorm q, q.z / euclNorm q⟩

/-- The Orientation Integrator as the spec words it: build the pure-vector
quaternion `dq = (0, ω.x·dt, ω.y·dt, ω.z·dt)` and return
`normalize(q ⊗ dq)` with `⊗` the Hamilton product. -/
def integrate_quat_spec (q : Quat) (w : V3) (dt : ℝ) : Quat :=
  normalize_spec (hamilton q ⟨0, (w.x : ℝ) * dt, (w.y : ℝ) * dt, (w.z : ℝ) * dt⟩)

theorem quat_mul_eq_hamilton (a b : Quat) : quat_mul a b = hamilton a b := by
  unfold quat_mul hamilton toQuaternion
  ext <;>
    simp [Quaternion.mul_re, Quaternion.mul_imI, Quaternion.mul_imJ,
      Quaternion.mul_imK]

theorem euclNorm_eq (p : Quat) : euclNorm p = quatNorm p := by
  unfold euclNorm quatNorm
  congr 1
  ring

theorem normalize_spec_eq (p : Quat) : normalize_spec p = quat_norm p := by
  unfold normalize_spec quat_norm
  rw [euclNorm_eq]

/-- Claim C4: for every orientation quaternion, angular velocity and
timestep, `integrate_quat` returns `normalize(q ⊗ dq)` where `dq` is the
pure-vector quaternion `(0, ω.x·dt, ω.y·dt, ω.z·dt)`, `⊗` is the standard
non-commutative Hamilton product (Mathlib's quaternion multiplication),
and normalization divides all four components by the Euclidean norm. -/
theorem c4_integrate_quat_hamilton (q : Quat) (w : V3) (dt : ℝ) :
    integrate_quat q w dt = integrate_quat_spec q w dt := by
  show quat_norm (quat_mul q ⟨0, (w.x : ℝ) * dt, (w.y : ℝ) * dt, (w.z : ℝ) * dt⟩) =
    normalize_spec (hamilton q ⟨0, (w.x : ℝ) * dt, (w.y : ℝ) * dt, (w.z : ℝ) * dt⟩)
  rw [quat_mul_eq_hamilton, normalize_spec_eq]

/-- The full per-frame state of the render loop: positions and angular
velocities plus the two orientation quaternions `q1`, `q2`
(src/main.cu line 171). -/
structure SimState where
  core : Core
  q1 : Quat
  q2 : Quat

/-- The timestep `0.01f` passed to `integrate_quat`
(src/main.cu lines 194-195). -/
def dt : ℝ := 1 / 100

/-- One full frame of the render loop (src/main.cu lines 183-240,
state-relevant parts): the position/coupling update, the device-to-host
copy, then quaternion integration of both bodies using the updated
angular velocities. -/
def step (s : SimState) : SimState :=
  { core := coreStep s.core,
    q1 := integrate_quat s.q1 (coreStep s.core).w1 dt,
    q2 := integrate_quat s.q2 (coreStep s.core).w2 dt }

/-- The initial state: `core0` plus identity quaternions
(src/main.cu line 171). -/
def init : SimState := ⟨core0, ⟨1, 0, 0, 0⟩, ⟨1, 0, 0, 0⟩⟩

/-- The pure-vector quaternion `dq` built inside `integrate_quat`
(src/main.cu line 84). -/
def dqOf (w : V3) (dt : ℝ) : Quat :=
  ⟨0, (w.x : ℝ) * dt, (w.y : ℝ) * dt, (w.z : ℝ) * dt⟩

/-- The quaternion handed to `quat_norm` for body 1 during the frame
executed from state `s` (the argument of the normalization at
src/main.cu line 85, frame of line 194). -/
def prenorm1 (s : SimState) : Quat :=
  quat_mul s.q1 (dqOf (coreStep s.core).w1 dt)

/-- Same for body 2 (frame of src/main.cu line 195). -/
def prenorm2 (s : SimState) : Quat :=
  quat_mul s.q2 (dqOf (coreStep s.core).w2 dt)

theorem step_q1 (s : SimState) : (step s).q1 = quat_norm (prenorm1 s) := rfl

theorem step_q2 (s : SimState) : (step s).q2 = quat_norm (prenorm2 s) := rfl

theorem quatNorm_eq_norm (q : Quat) : quatNorm q = ‖toQuaternion q‖ := by
  rw [quatNorm]
  have h : q.w * q.w + q.x * q.x + q.y * q.y + q.z * q.z =
      Quaternion.normSq (toQuaternion q) := by
    rw [Quaternion.normSq_def']
    simp [toQuaternion]
    ring
  rw [h, Quaternion.normSq_eq_norm_mul_self,
    Real.sqrt_mul_self (norm_nonneg _)]

theorem toQuaternion_mul (a b : Quat) :
    toQuaternion (quat_mul a b) = toQuaternion a * toQuaternion b := by
  rw [quat_mul_eq_hamilton]
  unfold hamilton toQuaternion
  rfl

theorem quatNorm_mul (a b : Quat) :
    quatNorm (quat_mul a b) = quatNorm a * quatNorm b := by
  simp only [quatNorm_eq_norm, toQuaternion_mul, norm_mul]

theorem quatNorm_quat_norm (q : Quat) (h : quatNorm q ≠ 0) :
    quatNorm (quat_norm q) = 1 := by
  have hnn : 0 ≤ q.w * q.w + q.x * q.x + q.y * q.y + q.z * q.z :=
    add_nonneg (add_nonneg (add_nonneg (mul_self_nonneg q.w)
      (mul_self_nonneg q.x)) (mul_self_nonneg q.y)) (mul_self_nonneg q.z)
  have hS : q.w * q.w + q.x * q.x + q.y * q.y + q.z * q.z =
      quatNorm q * quatNorm q := (Real.mul_self_sqrt hnn).symm
  have key : q.w / quatNorm q * (q.w / quatNorm q) +
      q.x / quatNorm q * (q.x / quatNorm q) +
      q.y / quatNorm q * (q.y / quatNorm q) +
      q.z / quatNorm q * (q.z / quatNorm q) = 1 := by
    field_simp
    linarith [hS]
  show Real.sqrt _ = 1
  rw [quat_norm]
  simp only
  rw [key, Real.sqrt_one]

theorem quatNorm_dqOf_ne_zero (w : V3) (hw : w.x ≠ 0) :
    quatNorm (dqOf w dt) ≠ 0 := by
  have hx : ((w.x : ℝ)) ≠ 0 := by exact_mod_cast hw
  have hdt : (dt : ℝ) ≠ 0 := by norm_num [dt]
  have h1 : 0 < (w.x : ℝ) * dt * ((w.x : ℝ) * dt) :=
    mul_self_pos.mpr (mul_ne_zero hx hdt)
  have h2 : 0 ≤ (w.y : ℝ) * dt * ((w.y : ℝ) * dt) := mul_self_nonneg _
  have h3 : 0 ≤ (w.z : ℝ) * dt * ((w.z : ℝ) * dt) := mul_self_nonneg _
  have : 0 < quatNorm (dqOf w dt) := by
    rw [quatNorm, dqOf]
    simp only
    apply Real.sqrt_pos.mpr
    nlinarith
  exact ne_of_gt this

theorem clampW_pos {v : ℚ} (h : 0 < v) : 0 < clampW v := by
  unfold clampW maxW
  exact lt_min (lt_of_lt_of_le h (le_max_left _ _)) (by norm_num)

theorem clampW_neg_of_neg {v : ℚ} (h : v < 0) : clampW v < 0 := by
  unfold clampW maxW
  exact lt_of_le_of_lt (min_le_left _ _) (max_lt h (by norm_num))

theorem core_w_sign : ∀ n,
    0 < (coreStep^[n] core0).w1.x ∧ (coreStep^[n] core0).w2.x < 0 := by
  intro n
  induction n with
  | zero => constructor <;> norm_num [core0]
  | succ n ih =>
      rw [Function.iterate_succ_apply', coreStep]
      split_ifs with h
      · exact ih
      · constructor
        · show 0 < (enforce_mesh (coreStep^[n] core0).w1 (coreStep^[n] core0).w2).1.x
          rw [(enforce_mesh_x _ _).1]
          unfold dampClamp
          exact clampW_pos (mul_pos ih.1 (by norm_num [damping]))
        · show (enforce_mesh (coreStep^[n] core0).w1 (coreStep^[n] core0).w2).2.x < 0
          rw [(enforce_mesh_x _ _).2]
          unfold dampClamp
          exact clampW_neg_of_neg
            (mul_neg_of_neg_of_pos ih.2 (by norm_num [damping]))

theorem traj_invariant : ∀ n,
    (step^[n] init).core = coreStep^[n] core0 ∧
    quatNorm (step^[n] init).q1 = 1 ∧ quatNorm (step^[n] init).q2 = 1 := by
  intro n
  induction n with
  | zero =>
      refine ⟨rfl, ?_, ?_⟩ <;>
        · show Real.sqrt (1 * 1 + 0 * 0 + 0 * 0 + 0 * 0) = 1
          rw [show (1 : ℝ) * 1 + 0 * 0 + 0 * 0 + 0 * 0 = 1 by ring,
            Real.sqrt_one]
  | succ n ih =>
      obtain ⟨hc, h1, h2⟩ := ih
      have hw := core_w_sign (n + 1)
      rw [Function.iterate_succ_apply'] at hw ⊢
      rw [← hc] at hw
      have hcore : (step (step^[n] init)).core = coreStep^[n + 1] core0 := by
        rw [Function.iterate_succ_apply']
        show coreStep (step^[n] init).core = coreStep (coreStep^[n] core0)
        rw [hc]
      refine ⟨hcore, ?_, ?_⟩
      · rw [step_q1, quatNorm_quat_norm]
        rw [prenorm1, quatNorm_mul, h1, one_mul]
        exact quatNorm_dqOf_ne_zero _ (ne_of_gt hw.1)
      · rw [step_q2, quatNorm_quat_norm]
        rw [prenorm2, quatNorm_mul, h2, one_mul]
        exact quatNorm_dqOf_ne_zero _ (ne_of_lt hw.2)

/-- Claim C5: in every state reachable from the initial state under the
per-frame update, the quaternion passed to `quat_norm` has nonzero norm
for both bodies — the division inside `quat_norm` is never a division by
zero.  (The `x` angular-velocity components keep their initial sign
forever, so the angular velocities are always nonzero, and the
orientation quaternions stay at norm 1.) -/
theorem c5_prenorm_nonzero : ∀ n,
    quatNorm (prenorm1 (step^[n] init)) ≠ 0 ∧
    quatNorm (prenorm2 (step^[n] init)) ≠ 0 := by
  intro n
  obtain ⟨hc, h1, h2⟩ := traj_invariant n
  have hw := core_w_sign (n + 1)
  rw [Function.iterate_succ_apply', ← hc] at hw
  constructor
  · rw [prenorm1, quatNorm_mul, h1, one_mul]
    exact quatNorm_dqOf_ne_zero _ (ne_of_gt hw.1)
  · rw [prenorm2, quatNorm_mul, h2, one_mul]
    exact quatNorm_dqOf_ne_zero _ (ne_of_lt hw.2)

/-- Claim C9: for all frames and both bodies, the Euclidean norm of the
orientation quaternion is within `1e-5` of 1 after each integration step
(in the exact-arithmetic embedding it is exactly 1). -/
theorem c9_norm_invariant : ∀ n,
    |quatNorm (step^[n] init).q1 - 1| ≤ 1 / 100000 ∧
    |quatNorm (step^[n] init).q2 - 1| ≤ 1 / 100000 := by
  intro n
  obtain ⟨-, h1, h2⟩ := traj_invariant n
  rw [h1, h2]
  norm_num

end

end NED
